import Mathlib

/-!
Shallow embedding of the cascade-delete logic of the `cloudtruth/junkdrawer`
repository: the project-subtree walk and project cascade deletion of
`src/repro/common/helpers.py`, and the integration cascade of
`src/delete_integrations.py`.  Remote HTTP interactions are modelled by
explicit environments (functions from identifiers/URLs to responses), and
mutating requests are recorded in an explicit action trace.
-/

namespace Junkdrawer

/-- `response.raise_for_status()` raises `HTTPError` exactly for status codes
in the 4xx and 5xx ranges; any status below 400 passes through silently. -/
def httpOk (s : Nat) : Bool := decide (s < 400)

/-! ## Integration cascade (`src/delete_integrations.py`) -/

/-- A pull or push action object, with the two fields the script reads:
`name` and `url`. -/
structure PullPush where
  name : String
  url : String
deriving DecidableEq

/-- One row of the `integrations` table built in `main`:
`[result['id'], result['name'], result['url'], integration_service]`. -/
structure Integration where
  iid : String
  name : String
  url : String
  service : String
deriving DecidableEq

/-- A listing response (`GET .../pulls/` or `.../pushes/`), as consumed by the
script: its HTTP status, and `resultsJson` standing for
`response.json().get('results', [])` — `some rs` when the body parses as JSON
(whatever the status; a missing `results` key gives `some []`), `none` when
`.json()` raises because the body is not JSON. -/
structure ListResp where
  status : Nat
  resultsJson : Option (List PullPush)
deriving DecidableEq

/-- The remote service as seen by one batch run: the pulls and pushes
listings per integration uuid, and the status returned by `DELETE url`. -/
structure IntEnv where
  pullsResp : String → ListResp
  pushesResp : String → ListResp
  delStatus : String → Nat

/-- A mutating (DELETE) request issued by the integration script. -/
inductive IAction where
  | delPull (p : PullPush)
  | delPush (p : PullPush)
  | delIntegration (url : String)
deriving DecidableEq

/-- The URL a delete action is issued against. -/
def IAction.targetUrl : IAction → String
  | .delPull p => p.url
  | .delPush p => p.url
  | .delIntegration u => u

/-- `delete_integration_pull(pull)`: returns early, issuing no request, when
`pull['name'] == 'ExternalValues'`; otherwise issues `DELETE pull['url']`.
A failing response (`HTTPError`) is caught and printed, so the request is
recorded and control continues regardless of its status. -/
def delete_integration_pull (pull : PullPush) : List IAction :=
  if pull.name = "ExternalValues" then [] else [IAction.delPull pull]

/-- `delete_integration_push(push)`: issues `DELETE push['url']`
unconditionally; a failing response is caught and printed. -/
def delete_integration_push (push : PullPush) : List IAction :=
  [IAction.delPush push]

/-- How the body of the `for integration in integrations` loop ends for one
integration: fall through to the next iteration, `exit(...)` on the
pushes-or-pulls check, an uncaught exception from `.json()`, or
`raise SystemExit(err)` from the integration delete. -/
inductive ProcResult where
  | ok
  | blocked
  | crashedJson
  | exitedErr
deriving DecidableEq

/-- One iteration of the `for integration in integrations` loop in `main`
(lines 158-192): fetch the pulls and pushes listings, apply the
`args.force is False` check against the raw listing lengths, then delete
each pull (via `delete_integration_pull`), each push, and finally the
integration itself, whose `HTTPError` is not caught but re-raised as
`SystemExit`.  Returns the issued delete requests and how the iteration
ended. -/
def processIntegration (env : IntEnv) (force : Bool) (ig : Integration) :
    List IAction × ProcResult :=
  match (env.pullsResp ig.iid).resultsJson with
  | none => ([], ProcResult.crashedJson)
  | some pulls =>
    match (env.pushesResp ig.iid).resultsJson with
    | none => ([], ProcResult.crashedJson)
    | some pushes =>
      if force = false ∧ (0 < pulls.length ∨ 0 < pushes.length) then
        ([], ProcResult.blocked)
      else
        let tr := pulls.flatMap delete_integration_pull ++
          pushes.flatMap delete_integration_push
        if httpOk (env.delStatus ig.url) then
          (tr ++ [IAction.delIntegration ig.url], ProcResult.ok)
        else
          (tr ++ [IAction.delIntegration ig.url], ProcResult.exitedErr)

/-- How a whole run of `main` ends (after the integrations listing):
normal completion of the loop (process exit 0), the
`exit('Integration has pushes or pulls; ...')` call (exit 1), an
unhandled exception (exit 1), or `raise SystemExit(err)` from an
integration delete (exit 1). -/
inductive BatchOutcome where
  | success
  | blockedExit
  | crashed
  | httpExit
  | noIntegrations
  | dryRunExit
deriving DecidableEq

/-- The process exit code for each way the run can end: a bare completed loop
exits 0; `exit(string)`, `SystemExit(err)` and an unhandled traceback all
exit non-zero. -/
def exitCode : BatchOutcome → Nat
  | .success => 0
  | .blockedExit => 1
  | .crashed => 1
  | .httpExit => 1
  | .noIntegrations => 1
  | .dryRunExit => 1

/-- The `for integration in integrations` loop: each integration is processed
in turn; `exit(...)`, `SystemExit` and unhandled exceptions terminate the
whole process, otherwise the loop continues with the next integration. -/
def runBatch (env : IntEnv) (force : Bool) : List Integration → List IAction × BatchOutcome
  | [] => ([], BatchOutcome.success)
  | ig :: rest =>
      match (processIntegration env force ig).2 with
      | ProcResult.ok =>
          ((processIntegration env force ig).1 ++ (runBatch env force rest).1,
            (runBatch env force rest).2)
      | ProcResult.blocked => ((processIntegration env force ig).1, BatchOutcome.blockedExit)
      | ProcResult.crashedJson => ((processIntegration env force ig).1, BatchOutcome.crashed)
      | ProcResult.exitedErr => ((processIntegration env force ig).1, BatchOutcome.httpExit)

/-- One row of the dry-run table: `headers=['uuid','name','url','service']`. -/
def integrationRow (ig : Integration) : String × String × String × String :=
  (ig.iid, ig.name, ig.url, ig.service)

/-- The table printed by the `args.dry_run` branch: exactly the integration
rows, nothing else (pulls and pushes are never fetched on this path). -/
def dryRunReport (igs : List Integration) : List (String × String × String × String) :=
  igs.map integrationRow

/-- `main` after the integrations listing has been collected into `igs`:
`exit('No integrations were found')` on an empty listing, the dry-run
early exit (which issues no deletes), and otherwise the deletion loop. -/
def mainRun (env : IntEnv) (igs : List Integration) (force dryRun : Bool) :
    List IAction × BatchOutcome :=
  if igs.length = 0 then ([], BatchOutcome.noIntegrations)
  else if dryRun then ([], BatchOutcome.dryRunExit)
  else runBatch env force igs

/-! ## Project tree walk and cascade delete (`src/repro/common/helpers.py`) -/

/-- The fields of a project object read by `helpers.py`: `id`, `name`, `url`,
`depends_on` (the parent project's URL, empty for a top-level project) and
`dependents` (the URLs of the direct child projects). -/
structure Project where
  pid : String
  name : String
  url : String
  depends_on : String
  dependents : List String
deriving DecidableEq

/-- The remote service as seen by the walk: `make_request(url, 'get', ...)`
returns a project object.  (A failing GET would `exit()` the process; the
well-formedness hypotheses below put every fetched URL in the forest, so
fetches are taken to succeed.) -/
def Fetch : Type := String → Project

/-- `project_has_dependents(project)`: `len(project.get('dependents')) > 0`. -/
def project_has_dependents (p : Project) : Bool := decide (0 < p.dependents.length)

/-- The `for child_project_url in child_project_urls` loop inside
`get_project_tree_projects`: each child URL is fetched, the child is appended
to the accumulator, and the walk recurses into it (via `rec`) exactly when the
child itself has dependents. -/
def childLoop (env : Fetch) (rec : Project → List Project → Option (List Project)) :
    List String → List Project → Option (List Project)
  | [], acc => some acc
  | u :: us, acc =>
      let child := env u
      if project_has_dependents child then
        match rec child (acc ++ [child]) with
        | none => none
        | some acc2 => childLoop env rec us acc2
      else childLoop env rec us (acc ++ [child])

/-- The body of `get_project_tree_projects` for a recursive call (the
accumulator list is already provided).  The `Nat` argument is recursion fuel;
the Python source has no such bound, so a `none` result means the recursion
is still running at that depth. -/
def walkFrom (env : Fetch) : Nat → Project → List Project → Option (List Project)
  | 0, _, _ => none
  | n + 1, p, acc =>
      if project_has_dependents p then childLoop env (walkFrom env n) p.dependents acc
      else some acc

/-- `get_project_tree_projects(project, api_url, headers)`: returns `None`
when `project` is `None`, otherwise seeds the accumulator with the root
project and walks its dependents. -/
def get_project_tree_projects (env : Fetch) (fuel : Nat) :
    Option Project → Option (List Project)
  | none => none
  | some p => walkFrom env fuel p [p]

/-- A finite project tree: a project together with the subtrees of its direct
child projects.  This is the specification-side picture of a parent/child
pointer graph that forms a finite forest rooted at one project. -/
inductive PTree where
  | node (proj : Project) (children : List PTree)

/-- The project at the root of a subtree. -/
def PTree.rootProj : PTree → Project
  | .node p _ => p

/-- The URLs of the roots of a list of subtrees. -/
def rootUrls (ts : List PTree) : List String :=
  ts.map fun t => t.rootProj.url

/-- Pre-order flattening of a forest: for each tree, its root first, then its
descendants, then the following trees. -/
def preorderF : List PTree → List Project
  | [] => []
  | PTree.node q ts :: rest => (q :: preorderF ts) ++ preorderF rest

/-- Pre-order flattening of a tree: root first, then descendants. -/
def preorderT : PTree → List Project
  | .node p ts => p :: preorderF ts

/-- Recursion depth the walk needs below a forest of sibling subtrees: a leaf
child costs nothing (the walk does not recurse into it), an inner child costs
one level plus whatever its own children need. -/
def depthF : List PTree → Nat
  | [] => 0
  | PTree.node _ [] :: rest => depthF rest
  | PTree.node _ (c :: cs) :: rest => max (depthF (c :: cs) + 1) (depthF rest)

/-- Well-formedness of a forest of sibling subtrees against the remote `env`,
under a parent URL `pu`: each root is returned verbatim when its URL is
fetched, declares `pu` as its parent, lists exactly its children's URLs as
`dependents`, and its children are in turn well formed under it. -/
def wfF (env : Fetch) : String → List PTree → Bool
  | _, [] => true
  | pu, PTree.node q ts :: rest =>
      decide (env q.url = q) && decide (q.depends_on = pu) &&
      decide (q.dependents = rootUrls ts) && wfF env q.url ts && wfF env pu rest

/-- Well-formedness of a whole rooted tree: the root (which the caller already
holds, so it is not re-fetched) lists exactly its children's URLs, and the
children are well formed under it. -/
def wfRoot (env : Fetch) : PTree → Bool
  | .node p ts => decide (p.dependents = rootUrls ts) && wfF env p.url ts

/-- The URLs of a list of projects. -/
def urlsOf (l : List Project) : List String := l.map fun p => p.url

/-- A mutating (DELETE) request issued by the project cascade. -/
inductive PAction where
  | delProject (p : Project)
  | delParameter (projectId : String) (parameterId : String)
deriving DecidableEq

/-- How a `delete_project` run ends: the loop over the reversed subtree list
completes; or `make_request` catches an `HTTPError` on a delete and calls
`exit()` — which is `SystemExit(None)`, process exit status 0; or
`delete_project_parameters` raises `TypeError`, because its log line
evaluates `parameters.count()` and Python's `list.count` requires an
argument. -/
inductive POutcome where
  | finished
  | exited0
  | typeError
deriving DecidableEq

/-- The remote service as seen by `delete_project`: project fetches by URL,
the status of `DELETE /projects/{id}/` by project id, and each project's
parameter list by project id (fetched by `delete_project_parameters` just
before its `TypeError`). -/
structure ProjEnv where
  fetch : Fetch
  delStatus : String → Nat
  params : String → List String

/-- The `for project in reversed(project_and_dependents)` loop of
`delete_project`.  With `force` set, the first iteration calls
`delete_project_parameters`, which raises `TypeError` (its
`parameters.count()` call) before deleting anything.  Without `force`, each
iteration issues `DELETE /projects/{id}/`; a non-2xx response makes
`make_request` log the error and `exit()` (status 0), aborting the rest of
the loop. -/
def deleteRunLoop (delStatus : String → Nat) (force : Bool) :
    List Project → List PAction × POutcome
  | [] => ([], POutcome.finished)
  | p :: ps =>
      if force then ([], POutcome.typeError)
      else
        if httpOk (delStatus p.pid) then
          let r := deleteRunLoop delStatus force ps
          (PAction.delProject p :: r.1, r.2)
        else ([PAction.delProject p], POutcome.exited0)

/-- `delete_project(project, api_url, headers, force)`: builds the subtree
list with `get_project_tree_projects`, then runs the deletion loop over the
reversed list.  `none` means the walk itself never returned (see the fuel
comment on `walkFrom`). -/
def delete_project (env : ProjEnv) (fuel : Nat) (project : Project) (force : Bool) :
    Option (List PAction × POutcome) :=
  (get_project_tree_projects env.fetch fuel (some project)).map fun l =>
    deleteRunLoop env.delStatus force l.reverse

/-! ## Concrete instances used to exercise the theorems on closed inputs -/

/-- Leaf project `D`, child of `B`. -/
def wD : Project := ⟨"idD", "D", "uD", "uB", []⟩

/-- Leaf project `C`, child of `A`. -/
def wC : Project := ⟨"idC", "C", "uC", "uA", []⟩

/-- Project `B`, child of `A`, with one child `D`. -/
def wB : Project := ⟨"idB", "B", "uB", "uA", ["uD"]⟩

/-- Root project `A` with children `B` and `C`. -/
def wA : Project := ⟨"idA", "A", "uA", "", ["uB", "uC"]⟩

/-- Concrete fetch function for the `A -> [B, C]`, `B -> [D]` forest. -/
def wFetch : Fetch := fun u =>
  if u = "uB" then wB else if u = "uC" then wC else if u = "uD" then wD else wA

/-- The forest under `A`. -/
def wForest : List PTree := [PTree.node wB [PTree.node wD []], PTree.node wC []]

/-- Project environment for that forest: deletes all succeed, no parameters. -/
def wEnv : ProjEnv := ⟨wFetch, fun _ => 204, fun _ => []⟩

/-- Single project with one parameter, for the force=false gate claim. -/
def gP : Project := ⟨"idP", "P", "uP", "", []⟩

/-- Environment in which `gP` has one parameter and deletes succeed. -/
def gEnv : ProjEnv := ⟨fun _ => gP, fun _ => 204, fun _ => ["q1"]⟩

/-- A self-referential project: its `dependents` list contains its own URL. -/
def cyc : Project := ⟨"idR", "R", "uR", "", ["uR"]⟩

/-- Remote graph with the cycle: every fetch returns `cyc`. -/
def cycFetch : Fetch := fun _ => cyc

/-- An ordinary pull. -/
def syncPull : PullPush := ⟨"sync-1", "pullU"⟩

/-- The protected pull. -/
def evPull : PullPush := ⟨"ExternalValues", "evU"⟩

/-- A push named like the protected pull. -/
def evPush : PullPush := ⟨"ExternalValues", "pushU"⟩

/-- A concrete integration row. -/
def ig0 : Integration := ⟨"i0", "gh-int", "igU", "github"⟩

/-- Integration environment: one ordinary pull, no pushes, all deletes 204. -/
def envPull : IntEnv :=
  ⟨fun _ => ⟨200, some [syncPull]⟩, fun _ => ⟨200, some []⟩, fun _ => 204⟩

/-- Like `envPull` but the pull's delete URL answers 404: the response to a
pull delete differs, nothing else does. -/
def envPull404 : IntEnv :=
  ⟨fun _ => ⟨200, some [syncPull]⟩, fun _ => ⟨200, some []⟩,
    fun u => if u = "pullU" then 404 else 204⟩

/-- Like `envPull` but the pull's delete URL answers 500. -/
def envPull500 : IntEnv :=
  ⟨fun _ => ⟨200, some [syncPull]⟩, fun _ => ⟨200, some []⟩,
    fun u => if u = "pullU" then 500 else 204⟩

/-- No pulls, no pushes; the integration's own delete answers 404. -/
def envGone404 : IntEnv :=
  ⟨fun _ => ⟨200, some []⟩, fun _ => ⟨200, some []⟩, fun _ => 404⟩

/-- Only the protected `ExternalValues` pull, no pushes, deletes succeed. -/
def envEvOnly : IntEnv :=
  ⟨fun _ => ⟨200, some [evPull]⟩, fun _ => ⟨200, some []⟩, fun _ => 204⟩

/-- The pulls listing failed with status 500 but its error body is JSON, so
`.json().get('results', [])` yields `[]`; pushes list fine; deletes succeed. -/
def envList500 : IntEnv :=
  ⟨fun _ => ⟨500, some []⟩, fun _ => ⟨200, some []⟩, fun _ => 204⟩

/-- The pulls listing failed and its body is not JSON: `.json()` raises. -/
def envListRaise : IntEnv :=
  ⟨fun _ => ⟨500, none⟩, fun _ => ⟨200, some []⟩, fun _ => 204⟩

/-- No pulls; one push named `ExternalValues`; deletes succeed. -/
def envEvPush : IntEnv :=
  ⟨fun _ => ⟨200, some []⟩, fun _ => ⟨200, some [evPush]⟩, fun _ => 204⟩

/-! ### Correctness of the walk on well-formed forests -/

theorem childLoop_cons_of_true (env : Fetch)
    (rec : Project → List Project → Option (List Project))
    (u : String) (us : List String) (acc : List Project) (q : Project)
    (henv : env u = q) (h : project_has_dependents q = true) :
    childLoop env rec (u :: us) acc =
      match rec q (acc ++ [q]) with
      | none => none
      | some acc2 => childLoop env rec us acc2 := by
  simp [childLoop, henv, h]

theorem childLoop_cons_of_false (env : Fetch)
    (rec : Project → List Project → Option (List Project))
    (u : String) (us : List String) (acc : List Project) (q : Project)
    (henv : env u = q) (h : project_has_dependents q = false) :
    childLoop env rec (u :: us) acc = childLoop env rec us (acc ++ [q]) := by
  simp [childLoop, henv, h]

theorem walkFrom_succ_of_true (env : Fetch) (n : Nat) (p : Project) (acc : List Project)
    (h : project_has_dependents p = true) :
    walkFrom env (n + 1) p acc = childLoop env (walkFrom env n) p.dependents acc := by
  simp [walkFrom, h]

theorem walkFrom_succ_of_false (env : Fetch) (n : Nat) (p : Project) (acc : List Project)
    (h : project_has_dependents p = false) :
    walkFrom env (n + 1) p acc = some acc := by
  simp [walkFrom, h]

theorem childLoop_spec (env : Fetch) (n : Nat)
    (hA : ∀ p ts acc, wfRoot env (PTree.node p ts) = true → depthF ts + 1 ≤ n →
      walkFrom env n p acc = some (acc ++ preorderF ts)) :
    ∀ ts pu acc, wfF env pu ts = true → depthF ts ≤ n →
      childLoop env (walkFrom env n) (rootUrls ts) acc = some (acc ++ preorderF ts) := by
  intro ts
  induction ts with
  | nil => intro pu acc _ _; simp [rootUrls, childLoop, preorderF]
  | cons t rest ih =>
    obtain ⟨q, ts2⟩ := t
    intro pu acc hwf hd
    simp only [wfF, Bool.and_eq_true, decide_eq_true_eq] at hwf
    obtain ⟨⟨⟨⟨hq, hpar⟩, hdeps⟩, hwf1⟩, hwf2⟩ := hwf
    have hr : rootUrls (PTree.node q ts2 :: rest) = q.url :: rootUrls rest := by
      simp [rootUrls, PTree.rootProj]
    rw [hr]
    cases ts2 with
    | nil =>
      have hnd : project_has_dependents q = false := by
        simp [project_has_dependents, hdeps, rootUrls]
      have hdrest : depthF rest ≤ n := by
        simpa [depthF] using hd
      rw [childLoop_cons_of_false env _ _ _ _ q hq hnd]
      rw [ih pu (acc ++ [q]) hwf2 hdrest]
      simp [preorderF, rootUrls]
    | cons c cs =>
      have hnd : project_has_dependents q = true := by
        simp [project_has_dependents, hdeps, rootUrls]
      have hdd : depthF (c :: cs) + 1 ≤ n ∧ depthF rest ≤ n := by
        simpa [depthF, Nat.max_le] using hd
      have hrootq : wfRoot env (PTree.node q (c :: cs)) = true := by
        simp only [wfRoot, Bool.and_eq_true, decide_eq_true_eq]
        exact ⟨hdeps, hwf1⟩
      have hrec := hA q (c :: cs) (acc ++ [q]) hrootq hdd.1
      rw [childLoop_cons_of_true env _ _ _ _ q hq hnd, hrec]
      show childLoop env (walkFrom env n) (rootUrls rest) (acc ++ [q] ++ preorderF (c :: cs)) = _
      rw [ih pu (acc ++ [q] ++ preorderF (c :: cs)) hwf2 hdd.2]
      simp [preorderF]

theorem walkFrom_spec (env : Fetch) :
    ∀ n p ts acc, wfRoot env (PTree.node p ts) = true → depthF ts < n →
      walkFrom env n p acc = some (acc ++ preorderF ts) := by
  intro n
  induction n with
  | zero => intro p ts acc _ h; omega
  | succ m ih =>
    intro p ts acc hwf hd
    simp only [wfRoot, Bool.and_eq_true, decide_eq_true_eq] at hwf
    obtain ⟨hdeps, hwfF⟩ := hwf
    cases ts with
    | nil =>
      have hnd : project_has_dependents p = false := by
        simp [project_has_dependents, hdeps, rootUrls]
      rw [walkFrom_succ_of_false env m p acc hnd]
      simp [preorderF]
    | cons c cs =>
      have hnd : project_has_dependents p = true := by
        simp [project_has_dependents, hdeps, rootUrls]
      rw [walkFrom_succ_of_true env m p acc hnd, hdeps]
      refine childLoop_spec env m
        (fun p2 ts2 acc2 hw hdd => ih p2 ts2 acc2 hw (by omega))
        (c :: cs) p.url acc hwfF (by omega)

/-- `get_project_tree_projects` on the root of a well-formed finite forest,
with enough fuel, returns exactly the pre-order flattening of that forest. -/
theorem get_tree_spec (env : Fetch) (p : Project) (ts : List PTree) (fuel : Nat)
    (hwf : wfRoot env (PTree.node p ts) = true) (hd : depthF ts < fuel) :
    get_project_tree_projects env fuel (some p) = some (preorderT (PTree.node p ts)) := by
  have h := walkFrom_spec env fuel p ts [p] hwf hd
  simpa [get_project_tree_projects, preorderT] using h

/-! ### Order properties of the pre-order flattening -/

theorem wfF_cons_iff (env : Fetch) (pu : String) (q : Project) (ts2 rest : List PTree) :
    wfF env pu (PTree.node q ts2 :: rest) = true ↔
      env q.url = q ∧ q.depends_on = pu ∧ q.dependents = rootUrls ts2 ∧
      wfF env q.url ts2 = true ∧ wfF env pu rest = true := by
  simp [wfF, Bool.and_eq_true, decide_eq_true_eq, and_assoc]

theorem preorderF_cons (q : Project) (ts2 rest : List PTree) :
    preorderF (PTree.node q ts2 :: rest) = (q :: preorderF ts2) ++ preorderF rest := by
  simp [preorderF]

/-- Every project in a well-formed forest declares as parent either the
forest's common parent URL or the URL of some project in the forest. -/
theorem depsInAux (env : Fetch) :
    ∀ N ts pu, sizeOf ts ≤ N → wfF env pu ts = true →
      ∀ a ∈ preorderF ts, a.depends_on ∈ pu :: urlsOf (preorderF ts) := by
  intro N
  induction N with
  | zero =>
    intro ts pu hs
    exfalso
    cases ts with
    | nil => simp at hs
    | cons t r => simp [List.cons.sizeOf_spec] at hs
  | succ N ih =>
    intro ts pu hs hwf a ha
    cases ts with
    | nil => simp [preorderF] at ha
    | cons t rest =>
      obtain ⟨q, ts2⟩ := t
      rw [wfF_cons_iff] at hwf
      obtain ⟨hq, hpar, hdeps, hwf1, hwf2⟩ := hwf
      simp only [List.cons.sizeOf_spec, PTree.node.sizeOf_spec] at hs
      have hsz1 : sizeOf ts2 ≤ N := by omega
      have hsz2 : sizeOf rest ≤ N := by omega
      rw [preorderF_cons] at ha ⊢
      simp only [List.mem_append, List.mem_cons] at ha
      have hurls : urlsOf ((q :: preorderF ts2) ++ preorderF rest) =
          q.url :: (urlsOf (preorderF ts2) ++ urlsOf (preorderF rest)) := by
        simp [urlsOf]
      rw [hurls]
      rcases ha with (rfl | ha2) | ha3
      · rw [hpar]; exact List.mem_cons_self _ _
      · have h := ih ts2 q.url hsz1 hwf1 a ha2
        simp only [List.mem_cons, List.mem_append] at h ⊢
        tauto
      · have h := ih rest pu hsz2 hwf2 a ha3
        simp only [List.mem_cons, List.mem_append] at h ⊢
        tauto

/-- In a well-formed forest whose URLs (together with the parent URL) are
distinct, the pre-order flattening never lists a project before one of its
ancestors: an earlier project never declares a later project's URL as its
parent, and no project declares itself. -/
theorem forestOrderAux (env : Fetch) :
    ∀ N ts pu, sizeOf ts ≤ N → wfF env pu ts = true →
      (pu :: urlsOf (preorderF ts)).Nodup →
      List.Pairwise (fun a b => a.depends_on ≠ b.url) (preorderF ts) ∧
      (∀ a ∈ preorderF ts, a.depends_on ≠ a.url) := by
  intro N
  induction N with
  | zero =>
    intro ts pu hs
    exfalso
    cases ts with
    | nil => simp at hs
    | cons t r => simp [List.cons.sizeOf_spec] at hs
  | succ N ih =>
    intro ts pu hs hwf hnd
    cases ts with
    | nil => simp [preorderF]
    | cons t rest =>
      obtain ⟨q, ts2⟩ := t
      rw [wfF_cons_iff] at hwf
      obtain ⟨hq, hpar, hdeps, hwf1, hwf2⟩ := hwf
      simp only [List.cons.sizeOf_spec, PTree.node.sizeOf_spec] at hs
      have hsz1 : sizeOf ts2 ≤ N := by omega
      have hsz2 : sizeOf rest ≤ N := by omega
      rw [preorderF_cons]
      rw [List.nodup_cons] at hnd
      obtain ⟨hpu_nin, hnd0⟩ := hnd
      have hurls : urlsOf ((q :: preorderF ts2) ++ preorderF rest) =
          q.url :: (urlsOf (preorderF ts2) ++ urlsOf (preorderF rest)) := by
        simp [urlsOf]
      rw [preorderF_cons, hurls] at hpu_nin hnd0
      rw [List.nodup_cons] at hnd0
      obtain ⟨hq_nin, hnd1⟩ := hnd0
      have hdisj := List.disjoint_of_nodup_append hnd1
      rw [List.nodup_append] at hnd1
      obtain ⟨hndL1, hndL2, _⟩ := hnd1
      have rec1 := ih ts2 q.url hsz1 hwf1 (by
        rw [List.nodup_cons]
        exact ⟨fun h => hq_nin (List.mem_append_left _ h), hndL1⟩)
      have rec2 := ih rest pu hsz2 hwf2 (by
        rw [List.nodup_cons]
        refine ⟨fun h => hpu_nin ?_, hndL2⟩
        exact List.mem_cons_of_mem _ (List.mem_append_right _ h))
      have hdeps1 := depsInAux env (sizeOf ts2) ts2 q.url le_rfl hwf1
      constructor
      · rw [List.pairwise_append]
        refine ⟨?_, rec2.1, ?_⟩
        · rw [List.pairwise_cons]
          refine ⟨?_, rec1.1⟩
          intro b hb hcontra
          rw [hpar] at hcontra
          apply hpu_nin
          rw [hcontra]
          exact List.mem_cons_of_mem _
            (List.mem_append_left _ (List.mem_map_of_mem _ hb))
        · intro a ha b hb hcontra
          have hbu : b.url ∈ urlsOf (preorderF rest) := List.mem_map_of_mem _ hb
          rcases List.mem_cons.mp ha with rfl | haL1
          · rw [hpar] at hcontra
            apply hpu_nin
            rw [hcontra]
            exact List.mem_cons_of_mem _ (List.mem_append_right _ hbu)
          · have hda := hdeps1 a haL1
            rcases List.mem_cons.mp hda with h1 | h1
            · apply hq_nin
              rw [← h1, hcontra]
              exact List.mem_append_right _ hbu
            · exact hdisj h1 (hcontra ▸ hbu)
      · intro a ha
        rw [List.mem_append, List.mem_cons] at ha
        rcases ha with (rfl | ha1) | ha2
        · rw [hpar]
          intro hc
          apply hpu_nin
          rw [hc]
          exact List.mem_cons_self _ _
        · exact rec1.2 a ha1
        · exact rec2.2 a ha2

/-- For a well-formed rooted tree with distinct URLs whose root is not the
dependent of anything in the tree, the pre-order list places every project
strictly before each project that declares it as parent, and no project
declares itself. -/
theorem treeOrder (env : Fetch) (p : Project) (ts : List PTree)
    (hwf : wfRoot env (PTree.node p ts) = true)
    (hnd : (urlsOf (preorderT (PTree.node p ts))).Nodup)
    (hroot : p.depends_on ∉ urlsOf (preorderT (PTree.node p ts))) :
    List.Pairwise (fun a b => a.depends_on ≠ b.url) (preorderT (PTree.node p ts)) ∧
    ∀ a ∈ preorderT (PTree.node p ts), a.depends_on ≠ a.url := by
  simp only [wfRoot, Bool.and_eq_true, decide_eq_true_eq] at hwf
  obtain ⟨hdeps, hwfF⟩ := hwf
  simp only [preorderT] at hnd hroot ⊢
  have hurls : urlsOf (p :: preorderF ts) = p.url :: urlsOf (preorderF ts) := by
    simp [urlsOf]
  rw [hurls] at hnd hroot
  have rec := forestOrderAux env (sizeOf ts) ts p.url le_rfl hwfF hnd
  constructor
  · rw [List.pairwise_cons]
    refine ⟨?_, rec.1⟩
    intro b hb hcontra
    apply hroot
    rw [hcontra]
    exact List.mem_cons_of_mem _ (List.mem_map_of_mem _ hb)
  · intro a ha
    rcases List.mem_cons.mp ha with rfl | h
    · intro hc
      apply hroot
      rw [hc]
      exact List.mem_cons_self _ _
    · exact rec.2 a h

/-- From the pairwise form to the positional form: if project `j` declares
project `i`'s URL as its parent, then `i` comes strictly earlier. -/
theorem pairwiseIndex (L : List Project)
    (hpw : List.Pairwise (fun a b => a.depends_on ≠ b.url) L)
    (hir : ∀ a ∈ L, a.depends_on ≠ a.url) :
    ∀ i j : Fin L.length, (L.get j).depends_on = (L.get i).url → (i : Nat) < (j : Nat) := by
  intro i j h
  rcases lt_trichotomy (i : Nat) (j : Nat) with hlt | heq | hgt
  · exact hlt
  · exfalso
    have hij : i = j := Fin.ext heq
    subst hij
    exact hir (L.get i) (L.get_mem i.1 i.2) h
  · exfalso
    exact List.pairwise_iff_get.mp hpw j i hgt h

/-! ### The deletion loop of `delete_project` -/

/-- With `force` unset and all delete requests succeeding, the loop issues
exactly one project delete per list entry, in list order, and finishes. -/
theorem deleteRunLoop_ok (ds : String → Nat) :
    ∀ l : List Project, (∀ q ∈ l, httpOk (ds q.pid) = true) →
      deleteRunLoop ds false l = (l.map PAction.delProject, POutcome.finished) := by
  intro l
  induction l with
  | nil => intro _; simp [deleteRunLoop]
  | cons p ps ih =>
    intro h
    have hp : httpOk (ds p.pid) = true := h p (List.mem_cons_self _ _)
    simp [deleteRunLoop, hp, ih fun q hq => h q (List.mem_cons_of_mem _ hq)]

/-! ### Claim C1 -/

/-- C1: for a root whose parent/child pointers form a finite well-formed
forest (with distinct URLs and a root that is nobody's dependent),
`get_project_tree_projects` returns the root first and every reachable
descendant exactly once in pre-order (each parent strictly before every
project that declares it as parent), and `delete_project` (default
`force=False`, all deletes succeeding) issues its per-node deletes in the
exact reverse of that sequence — so every project is deleted after all
projects whose `depends_on` equals its URL. -/
theorem C1_preorder_walk_and_reverse_deletion
    (env : ProjEnv) (p : Project) (ts : List PTree) (fuel : Nat)
    (hwf : wfRoot env.fetch (PTree.node p ts) = true)
    (hfuel : depthF ts < fuel)
    (hnd : (urlsOf (preorderT (PTree.node p ts))).Nodup)
    (hroot : p.depends_on ∉ urlsOf (preorderT (PTree.node p ts)))
    (hdel : ∀ q ∈ preorderT (PTree.node p ts), httpOk (env.delStatus q.pid) = true) :
    get_project_tree_projects env.fetch fuel (some p) = some (preorderT (PTree.node p ts)) ∧
    (preorderT (PTree.node p ts)).head? = some p ∧
    (preorderT (PTree.node p ts)).Nodup ∧
    (∀ i j : Fin (preorderT (PTree.node p ts)).length,
      ((preorderT (PTree.node p ts)).get j).depends_on =
        ((preorderT (PTree.node p ts)).get i).url → (i : Nat) < (j : Nat)) ∧
    delete_project env fuel p false =
      some ((preorderT (PTree.node p ts)).reverse.map PAction.delProject,
        POutcome.finished) := by
  have hwalk := get_tree_spec env.fetch p ts fuel hwf hfuel
  have horder := treeOrder env.fetch p ts hwf hnd hroot
  refine ⟨hwalk, by simp [preorderT], ?_, ?_, ?_⟩
  · exact List.Nodup.of_map _ hnd
  · exact pairwiseIndex _ horder.1 horder.2
  · have hrev : ∀ q ∈ (preorderT (PTree.node p ts)).reverse,
        httpOk (env.delStatus q.pid) = true :=
      fun q hq => hdel q (List.mem_reverse.mp hq)
    simp [delete_project, hwalk, deleteRunLoop_ok env.delStatus _ hrev]

theorem C1_preorder_walk_and_reverse_deletion_witness :
    get_project_tree_projects wEnv.fetch 10 (some wA) =
      some (preorderT (PTree.node wA wForest)) ∧
    (preorderT (PTree.node wA wForest)).head? = some wA ∧
    (preorderT (PTree.node wA wForest)).Nodup ∧
    (∀ i j : Fin (preorderT (PTree.node wA wForest)).length,
      ((preorderT (PTree.node wA wForest)).get j).depends_on =
        ((preorderT (PTree.node wA wForest)).get i).url → (i : Nat) < (j : Nat)) ∧
    delete_project wEnv 10 wA false =
      some ((preorderT (PTree.node wA wForest)).reverse.map PAction.delProject,
        POutcome.finished) :=
  C1_preorder_walk_and_reverse_deletion wEnv wA wForest 10
    (by simp [wfRoot, wfF, wForest, rootUrls, PTree.rootProj, wEnv, wFetch, wA, wB, wC, wD])
    (by simp [depthF, wForest])
    (by simp [preorderT, preorderF, urlsOf, wForest, wA, wB, wC, wD])
    (by simp [preorderT, preorderF, urlsOf, wForest, wA, wB, wC, wD])
    (by intro q hq; simp [wEnv, httpOk])

/-! ### Claim C2 -/

/-- C2 counterexample: a force=false run on a project that has a parameter
does not stop before deleting the node — there is no blocked outcome at all;
the project's delete is issued and the run finishes, while the parameter is
simply never considered. -/
theorem C2_counterexample_no_gate_project_deleted :
    gEnv.params gP.pid = ["q1"] ∧
    delete_project gEnv 5 gP false =
      some ([PAction.delProject gP], POutcome.finished) := by
  exact ⟨rfl, rfl⟩

/-- C2 amended: with `force=false`, `delete_project` performs no dependents
check whatsoever: it deletes no parameter of any node, and unconditionally
issues the project delete for every node of the subtree (in reverse
pre-order), finishing normally; no blocked-by-dependents stop exists. -/
theorem C2_no_force_means_no_gate_and_full_deletion
    (env : ProjEnv) (p : Project) (ts : List PTree) (fuel : Nat)
    (hwf : wfRoot env.fetch (PTree.node p ts) = true)
    (hfuel : depthF ts < fuel)
    (hdel : ∀ q ∈ preorderT (PTree.node p ts), httpOk (env.delStatus q.pid) = true) :
    ∃ tr, delete_project env fuel p false = some (tr, POutcome.finished) ∧
      tr = (preorderT (PTree.node p ts)).reverse.map PAction.delProject ∧
      (∀ q ∈ preorderT (PTree.node p ts), PAction.delProject q ∈ tr) ∧
      (∀ pid par, PAction.delParameter pid par ∉ tr) := by
  have hwalk := get_tree_spec env.fetch p ts fuel hwf hfuel
  have hrev : ∀ q ∈ (preorderT (PTree.node p ts)).reverse,
      httpOk (env.delStatus q.pid) = true :=
    fun q hq => hdel q (List.mem_reverse.mp hq)
  refine ⟨(preorderT (PTree.node p ts)).reverse.map PAction.delProject, ?_, rfl, ?_, ?_⟩
  · simp [delete_project, hwalk, deleteRunLoop_ok env.delStatus _ hrev]
  · intro q hq
    exact List.mem_map_of_mem _ (List.mem_reverse.mpr hq)
  · intro pid par hmem
    rcases List.mem_map.mp hmem with ⟨q, _, hq⟩
    exact PAction.noConfusion hq

theorem C2_no_force_means_no_gate_and_full_deletion_witness :
    ∃ tr, delete_project gEnv 5 gP false = some (tr, POutcome.finished) ∧
      tr = (preorderT (PTree.node gP [])).reverse.map PAction.delProject ∧
      (∀ q ∈ preorderT (PTree.node gP []), PAction.delProject q ∈ tr) ∧
      (∀ pid par, PAction.delParameter pid par ∉ tr) :=
  C2_no_force_means_no_gate_and_full_deletion gEnv gP [] 5
    (by simp [wfRoot, wfF, rootUrls, gEnv, gP])
    (by simp [depthF])
    (by intro q hq; simp [gEnv, httpOk])

/-! ### Claim C9 -/

theorem walk_cycle_never_returns : ∀ n acc, walkFrom cycFetch n cyc acc = none := by
  intro n
  induction n with
  | zero => intro acc; rfl
  | succ m ih =>
    intro acc
    have h : project_has_dependents cyc = true := rfl
    rw [walkFrom_succ_of_true cycFetch m cyc acc h]
    show childLoop cycFetch (walkFrom cycFetch m) ["uR"] acc = none
    rw [childLoop_cons_of_true cycFetch _ "uR" [] acc cyc rfl h]
    rw [ih (acc ++ [cyc])]

/-- C9: the subtree walk has no defensive recursion bound and no
`MalformedTree` signal.  On a cyclic pointer graph (a project listing its own
URL among its dependents) the walk is still recursing at every depth `fuel`,
for all `fuel` — in Python it recurses until the interpreter kills it,
instead of stopping at a generous maximum and signalling `MalformedTree`. -/
theorem C9_no_depth_bound_on_cycle :
    ∀ fuel : Nat, get_project_tree_projects cycFetch fuel (some cyc) = none := by
  intro fuel
  show walkFrom cycFetch fuel cyc [cyc] = none
  exact walk_cycle_never_returns fuel [cyc]

theorem C9_no_depth_bound_on_cycle_witness :
    get_project_tree_projects cycFetch 1000 (some cyc) = none :=
  C9_no_depth_bound_on_cycle 1000

/-! ### Unfolding lemmas for the integration cascade -/

theorem processIntegration_eq (env : IntEnv) (force : Bool) (ig : Integration)
    (pulls pushes : List PullPush)
    (h1 : (env.pullsResp ig.iid).resultsJson = some pulls)
    (h2 : (env.pushesResp ig.iid).resultsJson = some pushes)
    (h3 : ¬(force = false ∧ (0 < pulls.length ∨ 0 < pushes.length))) :
    processIntegration env force ig =
      (pulls.flatMap delete_integration_pull ++
        (pushes.flatMap delete_integration_push ++ [IAction.delIntegration ig.url]),
       if httpOk (env.delStatus ig.url) then ProcResult.ok else ProcResult.exitedErr) := by
  simp only [processIntegration, h1, h2, h3, if_false]
  by_cases hok : httpOk (env.delStatus ig.url) <;> simp [hok, List.append_assoc]

theorem processIntegration_blocked (env : IntEnv) (ig : Integration)
    (pulls pushes : List PullPush)
    (h1 : (env.pullsResp ig.iid).resultsJson = some pulls)
    (h2 : (env.pushesResp ig.iid).resultsJson = some pushes)
    (h3 : 0 < pulls.length ∨ 0 < pushes.length) :
    processIntegration env false ig = ([], ProcResult.blocked) := by
  simp [processIntegration, h1, h2, h3]

theorem processIntegration_crashed_pulls (env : IntEnv) (force : Bool) (ig : Integration)
    (h : (env.pullsResp ig.iid).resultsJson = none) :
    processIntegration env force ig = ([], ProcResult.crashedJson) := by
  simp [processIntegration, h]

theorem processIntegration_crashed_pushes (env : IntEnv) (force : Bool) (ig : Integration)
    (pulls : List PullPush)
    (h1 : (env.pullsResp ig.iid).resultsJson = some pulls)
    (h2 : (env.pushesResp ig.iid).resultsJson = none) :
    processIntegration env force ig = ([], ProcResult.crashedJson) := by
  simp [processIntegration, h1, h2]

theorem runBatch_cons_ok (env : IntEnv) (force : Bool) (ig : Integration)
    (rest : List Integration) (h : (processIntegration env force ig).2 = ProcResult.ok) :
    runBatch env force (ig :: rest) =
      ((processIntegration env force ig).1 ++ (runBatch env force rest).1,
        (runBatch env force rest).2) := by
  simp [runBatch, h]

theorem runBatch_cons_blocked (env : IntEnv) (force : Bool) (ig : Integration)
    (rest : List Integration) (h : (processIntegration env force ig).2 = ProcResult.blocked) :
    runBatch env force (ig :: rest) =
      ((processIntegration env force ig).1, BatchOutcome.blockedExit) := by
  simp [runBatch, h]

theorem runBatch_cons_crashed (env : IntEnv) (force : Bool) (ig : Integration)
    (rest : List Integration)
    (h : (processIntegration env force ig).2 = ProcResult.crashedJson) :
    runBatch env force (ig :: rest) =
      ((processIntegration env force ig).1, BatchOutcome.crashed) := by
  simp [runBatch, h]

theorem runBatch_cons_exited (env : IntEnv) (force : Bool) (ig : Integration)
    (rest : List Integration)
    (h : (processIntegration env force ig).2 = ProcResult.exitedErr) :
    runBatch env force (ig :: rest) =
      ((processIntegration env force ig).1, BatchOutcome.httpExit) := by
  simp [runBatch, h]

/-- Every delete issued by the batch loop is issued while processing some
integration of the batch. -/
theorem mem_runBatch (env : IntEnv) (force : Bool) :
    ∀ (igs : List Integration) (a : IAction), a ∈ (runBatch env force igs).1 →
      ∃ ig, ig ∈ igs ∧ a ∈ (processIntegration env force ig).1 := by
  intro igs
  induction igs with
  | nil => intro a ha; simp [runBatch] at ha
  | cons ig rest ih =>
    intro a ha
    cases hr : (processIntegration env force ig).2 with
    | ok =>
      rw [runBatch_cons_ok env force ig rest hr] at ha
      rcases List.mem_append.mp ha with h | h
      · exact ⟨ig, List.mem_cons_self _ _, h⟩
      · obtain ⟨ig2, h2, h3⟩ := ih a h
        exact ⟨ig2, List.mem_cons_of_mem _ h2, h3⟩
    | blocked =>
      rw [runBatch_cons_blocked env force ig rest hr] at ha
      exact ⟨ig, List.mem_cons_self _ _, ha⟩
    | crashedJson =>
      rw [runBatch_cons_crashed env force ig rest hr] at ha
      exact ⟨ig, List.mem_cons_self _ _, ha⟩
    | exitedErr =>
      rw [runBatch_cons_exited env force ig rest hr] at ha
      exact ⟨ig, List.mem_cons_self _ _, ha⟩

/-- No iteration of the loop ever issues a pull delete for a pull named
`ExternalValues`. -/
theorem mem_process_pull_name (env : IntEnv) (force : Bool) (ig : Integration)
    (p : PullPush) (h : IAction.delPull p ∈ (processIntegration env force ig).1) :
    p.name ≠ "ExternalValues" := by
  cases h1 : (env.pullsResp ig.iid).resultsJson with
  | none => rw [processIntegration_crashed_pulls env force ig h1] at h; simp at h
  | some pulls =>
    cases h2 : (env.pushesResp ig.iid).resultsJson with
    | none => rw [processIntegration_crashed_pushes env force ig pulls h1 h2] at h; simp at h
    | some pushes =>
      by_cases h3 : force = false ∧ (0 < pulls.length ∨ 0 < pushes.length)
      · rw [h3.1, processIntegration_blocked env ig pulls pushes h1 h2 h3.2] at h
        simp at h
      · rw [processIntegration_eq env force ig pulls pushes h1 h2 h3] at h
        simp only [List.mem_append, List.mem_flatMap, List.mem_singleton] at h
        rcases h with ⟨q, hq, hmem⟩ | ⟨q, hq, hmem⟩ | heq
        · by_cases hev : q.name = "ExternalValues"
          · simp [delete_integration_pull, hev] at hmem
          · simp only [delete_integration_pull, hev, if_false, List.mem_singleton] at hmem
            have : p = q := by injection hmem
            rw [this]; exact hev
        · simp [delete_integration_push] at hmem
        · simp at heq

/-! ### Claim C3 -/

/-- C3: across every run of the integration batch — force or not, dry run or
not — no delete request is ever issued for a pull whose name is exactly
`ExternalValues`. -/
theorem C3_externalvalues_pull_never_deleted
    (env : IntEnv) (igs : List Integration) (force dryRun : Bool) (p : PullPush)
    (h : IAction.delPull p ∈ (mainRun env igs force dryRun).1) :
    p.name ≠ "ExternalValues" := by
  unfold mainRun at h
  by_cases h0 : igs.length = 0
  · simp [h0] at h
  · by_cases hd : dryRun
    · simp [h0, hd] at h
    · simp only [h0, hd, if_false] at h
      obtain ⟨ig, _, hmem⟩ := mem_runBatch env force igs (IAction.delPull p) h
      exact mem_process_pull_name env force ig p hmem

theorem C3_externalvalues_pull_never_deleted_witness :
    IAction.delPull syncPull ∈ (mainRun envPull [ig0] true false).1 ∧
    syncPull.name ≠ "ExternalValues" :=
  ⟨by decide, C3_externalvalues_pull_never_deleted envPull [ig0] true false syncPull (by decide)⟩

/-! ### Claim C10 -/

/-- C10: the `ExternalValues` exclusion applies only to pulls.
`delete_integration_push` issues its delete unconditionally, so under force a
push is delete-requested whatever its name — in particular a push named
`ExternalValues`. -/
theorem C10_push_deleted_regardless_of_name
    (env : IntEnv) (ig : Integration) (pulls pushes : List PullPush) (p : PullPush)
    (h1 : (env.pullsResp ig.iid).resultsJson = some pulls)
    (h2 : (env.pushesResp ig.iid).resultsJson = some pushes)
    (hp : p ∈ pushes) :
    delete_integration_push p = [IAction.delPush p] ∧
    IAction.delPush p ∈ (processIntegration env true ig).1 := by
  refine ⟨rfl, ?_⟩
  rw [processIntegration_eq env true ig pulls pushes h1 h2 (by simp)]
  simp only [List.mem_append, List.mem_flatMap, List.mem_singleton]
  exact Or.inr (Or.inl ⟨p, hp, by simp [delete_integration_push]⟩)

theorem C10_push_deleted_regardless_of_name_witness :
    delete_integration_push evPush = [IAction.delPush evPush] ∧
    IAction.delPush evPush ∈ (processIntegration envEvPush true ig0).1 :=
  C10_push_deleted_regardless_of_name envEvPush ig0 [] [evPush] evPush rfl rfl
    (by decide)

/-! ### Claim C4 -/

/-- C4 counterexample: an integration that is already gone (its own delete
answers 404) does change the run's final status — the `HTTPError` is
re-raised as `SystemExit(err)` and the process exits non-zero, unlike a
successful run. -/
theorem C4_counterexample_notfound_on_integration_delete :
    envGone404.delStatus ig0.url = 404 ∧
    runBatch envGone404 false [ig0] =
      ([IAction.delIntegration ig0.url], BatchOutcome.httpExit) ∧
    exitCode BatchOutcome.httpExit ≠ exitCode BatchOutcome.success := by
  exact ⟨rfl, by decide, by decide⟩

/-- C4 amended: for pull and push deletes the remote status (not-found
included) is caught and printed and never influences the trace or the final
status — two environments that differ only in delete statuses off the
integrations' own URLs produce identical runs; and in the helpers engine a
failed project delete makes `make_request` call `exit()`, which is process
exit status 0, though it aborts the remaining loop.  The exception is an
integration's own delete, whose failure exits non-zero
(see the counterexample). -/
theorem C4_pull_push_delete_status_never_changes_run :
    (∀ (env env2 : IntEnv) (force : Bool) (igs : List Integration),
      env2.pullsResp = env.pullsResp →
      env2.pushesResp = env.pushesResp →
      (∀ ig ∈ igs, env2.delStatus ig.url = env.delStatus ig.url) →
      runBatch env2 force igs = runBatch env force igs) ∧
    (∀ (ds : String → Nat) (p : Project) (ps : List Project),
      httpOk (ds p.pid) = false →
      deleteRunLoop ds false (p :: ps) = ([PAction.delProject p], POutcome.exited0)) := by
  constructor
  · intro env env2 force igs h1 h2
    induction igs with
    | nil => intro _; rfl
    | cons ig rest ih =>
      intro h3
      have hpi : processIntegration env2 force ig = processIntegration env force ig := by
        unfold processIntegration
        rw [h1, h2, h3 ig (List.mem_cons_self _ _)]
      have hrest := ih fun ig2 hig => h3 ig2 (List.mem_cons_of_mem _ hig)
      simp only [runBatch, hpi, hrest]
  · intro ds p ps h
    simp [deleteRunLoop, h]

theorem C4_pull_push_delete_status_never_changes_run_witness :
    runBatch envPull404 true [ig0] = runBatch envPull true [ig0] ∧
    deleteRunLoop (fun _ => 404) false [gP] =
      ([PAction.delProject gP], POutcome.exited0) :=
  ⟨C4_pull_push_delete_status_never_changes_run.1 envPull envPull404 true [ig0]
      rfl rfl (by decide),
    C4_pull_push_delete_status_never_changes_run.2 (fun _ => 404) gP [] rfl⟩

/-! ### Claim C5 -/

/-- C5 counterexample: the only pull's delete URL answers 500 — a per-item
remote failure — yet the run's final status is success (exit 0), not failed. -/
theorem C5_counterexample_failed_item_but_success :
    httpOk (envPull500.delStatus syncPull.url) = false ∧
    runBatch envPull500 true [ig0] =
      ([IAction.delPull syncPull, IAction.delIntegration ig0.url],
        BatchOutcome.success) ∧
    exitCode BatchOutcome.success = 0 := by
  exact ⟨rfl, by decide, rfl⟩

/-- C5 amended: a failing pull or push delete is printed and does not abort
the remaining plan — whatever the delete statuses of pulls and pushes, every
pull delete, every push delete and the integration delete are attempted, and
the batch continues; but no per-item failure is recorded: the outcome is
whatever the rest of the batch yields, so the final status is success
whenever the integrations' own deletes succeed. -/
theorem C5_best_effort_but_item_failures_unrecorded
    (env : IntEnv) (ig : Integration) (rest : List Integration)
    (pulls pushes : List PullPush)
    (h1 : (env.pullsResp ig.iid).resultsJson = some pulls)
    (h2 : (env.pushesResp ig.iid).resultsJson = some pushes)
    (hok : httpOk (env.delStatus ig.url) = true) :
    runBatch env true (ig :: rest) =
      (pulls.flatMap delete_integration_pull ++
        (pushes.flatMap delete_integration_push ++
          (IAction.delIntegration ig.url :: (runBatch env true rest).1)),
        (runBatch env true rest).2) := by
  have hpi := processIntegration_eq env true ig pulls pushes h1 h2 (by simp)
  rw [hok, if_pos rfl] at hpi
  rw [runBatch_cons_ok env true ig rest (by rw [hpi])]
  rw [hpi]
  simp [List.append_assoc]

theorem C5_best_effort_but_item_failures_unrecorded_witness :
    runBatch envPull500 true [ig0] =
      ([syncPull].flatMap delete_integration_pull ++
        (([] : List PullPush).flatMap delete_integration_push ++
          (IAction.delIntegration ig0.url :: (runBatch envPull500 true []).1)),
        (runBatch envPull500 true []).2) :=
  C5_best_effort_but_item_failures_unrecorded envPull500 ig0 [] [syncPull] []
    rfl rfl rfl

/-! ### Claim C6 -/

/-- C6 counterexample: an integration whose only pull is named
`ExternalValues` and that has no pushes is blocked under force=false — the
refusal tests the raw pulls list, so the integration is not deleted and the
whole batch exits with the blocked message. -/
theorem C6_counterexample_externalvalues_only_still_blocks :
    (envEvOnly.pullsResp ig0.iid).resultsJson = some [evPull] ∧
    (envEvOnly.pushesResp ig0.iid).resultsJson = some [] ∧
    evPull.name = "ExternalValues" ∧
    processIntegration envEvOnly false ig0 = ([], ProcResult.blocked) ∧
    runBatch envEvOnly false [ig0] = ([], BatchOutcome.blockedExit) := by
  exact ⟨rfl, rfl, rfl, by decide, by decide⟩

/-- C6 amended: the force=false refusal is computed on the raw pulls and
pushes listings, with no `ExternalValues` exclusion: if either listing is
non-empty the run exits with the blocked message before deleting anything —
aborting the whole batch — and only when both listings are empty does the
cascade proceed to delete the integration. -/
theorem C6_refusal_tests_raw_listings :
    (∀ (env : IntEnv) (ig : Integration) (rest : List Integration)
      (pulls pushes : List PullPush),
      (env.pullsResp ig.iid).resultsJson = some pulls →
      (env.pushesResp ig.iid).resultsJson = some pushes →
      (0 < pulls.length ∨ 0 < pushes.length) →
      runBatch env false (ig :: rest) = ([], BatchOutcome.blockedExit)) ∧
    (∀ (env : IntEnv) (ig : Integration),
      (env.pullsResp ig.iid).resultsJson = some [] →
      (env.pushesResp ig.iid).resultsJson = some [] →
      (processIntegration env false ig).1 = [IAction.delIntegration ig.url]) := by
  constructor
  · intro env ig rest pulls pushes h1 h2 h3
    have hpi := processIntegration_blocked env ig pulls pushes h1 h2 h3
    rw [runBatch_cons_blocked env false ig rest (by rw [hpi]), hpi]
  · intro env ig h1 h2
    rw [processIntegration_eq env false ig [] [] h1 h2 (by simp)]
    simp

theorem C6_refusal_tests_raw_listings_witness :
    runBatch envEvOnly false [ig0] = ([], BatchOutcome.blockedExit) ∧
    (processIntegration envGone404 false ig0).1 = [IAction.delIntegration ig0.url] :=
  ⟨C6_refusal_tests_raw_listings.1 envEvOnly ig0 [] [evPull] [] rfl rfl (by decide),
    C6_refusal_tests_raw_listings.2 envGone404 ig0 rfl rfl⟩

/-! ### Claim C7 -/

/-- C7 counterexample: the pulls listing failed (HTTP 500), yet the
integration's cascade is not aborted — with force, the integration itself is
deleted and the run even ends successfully. -/
theorem C7_counterexample_listing_failure_still_deletes :
    (envList500.pullsResp ig0.iid).status = 500 ∧
    httpOk (envList500.pullsResp ig0.iid).status = false ∧
    runBatch envList500 true [ig0] =
      ([IAction.delIntegration ig0.url], BatchOutcome.success) := by
  exact ⟨rfl, rfl, by decide⟩

/-- C7 amended: a listing failure is not fatal for the integration: the
caught error is printed and the error response's parsed body is used, so a
JSON error body (no `results` key) reads as an empty listing and the cascade
proceeds — deleting the very integration whose dependents could not be
determined — while the batch continues; if instead the failed response body
is not JSON, `.json()` raises and the whole batch crashes rather than
skipping just that integration. -/
theorem C7_listing_failure_not_fatal_per_integration :
    (∀ (env : IntEnv) (ig : Integration) (rest : List Integration),
      httpOk (env.pullsResp ig.iid).status = false →
      (env.pullsResp ig.iid).resultsJson = some [] →
      (env.pushesResp ig.iid).resultsJson = some [] →
      httpOk (env.delStatus ig.url) = true →
      runBatch env true (ig :: rest) =
        (IAction.delIntegration ig.url :: (runBatch env true rest).1,
          (runBatch env true rest).2)) ∧
    (∀ (env : IntEnv) (ig : Integration) (rest : List Integration) (force : Bool),
      (env.pullsResp ig.iid).resultsJson = none →
      runBatch env force (ig :: rest) = ([], BatchOutcome.crashed)) := by
  constructor
  · intro env ig rest hfail h1 h2 hok
    have hpi := processIntegration_eq env true ig [] [] h1 h2 (by simp)
    rw [hok, if_pos rfl] at hpi
    rw [runBatch_cons_ok env true ig rest (by rw [hpi]), hpi]
    simp
  · intro env ig rest force h
    have hpi := processIntegration_crashed_pulls env force ig h
    rw [runBatch_cons_crashed env force ig rest (by rw [hpi]), hpi]

theorem C7_listing_failure_not_fatal_per_integration_witness :
    runBatch envList500 true [ig0] =
      (IAction.delIntegration ig0.url :: (runBatch envList500 true []).1,
        (runBatch envList500 true []).2) ∧
    runBatch envListRaise true [ig0] = ([], BatchOutcome.crashed) :=
  ⟨C7_listing_failure_not_fatal_per_integration.1 envList500 ig0 [] rfl rfl rfl rfl,
    C7_listing_failure_not_fatal_per_integration.2 envListRaise ig0 [] true rfl⟩

/-! ### Claim C8 -/

/-- C8 counterexample: the dry-run report lists only the integrations, not
their cascade targets — here the real run deletes a pull the report never
mentions, so the report does not reproduce what a real run deletes.  (The
dry run itself performs no deletes.) -/
theorem C8_counterexample_dry_run_report_misses_targets :
    (mainRun envPull [ig0] true true).1 = [] ∧
    (mainRun envPull [ig0] true false).1.map IAction.targetUrl ≠
      (dryRunReport [ig0]).map (fun r => r.2.2.1) := by
  exact ⟨rfl, by decide⟩

/-- C8 amended: a dry run issues zero mutating calls and exits after printing
the table of integrations (uuid, name, url, service); it enumerates only the
integrations themselves, never fetching or listing their pulls and pushes,
so its report omits the cascade targets a real run would delete. -/
theorem C8_dry_run_no_mutation_lists_only_integrations
    (env : IntEnv) (igs : List Integration) (force : Bool)
    (h : 0 < igs.length) :
    mainRun env igs force true = ([], BatchOutcome.dryRunExit) ∧
    dryRunReport igs = igs.map integrationRow := by
  constructor
  · unfold mainRun
    rw [if_neg (by omega), if_pos rfl]
  · rfl

theorem C8_dry_run_no_mutation_lists_only_integrations_witness :
    mainRun envPull [ig0] true true = ([], BatchOutcome.dryRunExit) ∧
    dryRunReport [ig0] = [ig0].map integrationRow :=
  C8_dry_run_no_mutation_lists_only_integrations envPull [ig0] true (by decide)

end Junkdrawer
